import Mathlib

/-!
Verification development for the robo-lambda teleoperation / record / replay stack
(`teleoperate.py`, `record.py`, `replay.py`).

The wire codec, the mode-toggle automaton, the teleoperation cycle, the replay
engine and the recorder loop are embedded as Lean functions translated from the
Python source.  Machine floats are modelled by exact scalars (`ℝ` where norms
are involved, `ℚ` elsewhere); decimal formatting of the wire protocol is
modelled as exact (a formatted field carries the value it prints).  Socket,
joystick and clock effects are modelled by explicit input sequences.
-/

namespace RoboLambda

/-! ### Wire codec (`send2robot` / `listen2robot`)

A received buffer is modelled after Python's `message.split(",")`: a list of
fields.  A field that parses as a float is `num x`; a field that fails float
parsing is `raw s` (the sentinel `"s"` and the empty trailing field are such
fields).  -/

inductive WireField (α : Type) where
  | num (x : α)
  | raw (s : String)
  deriving DecidableEq

/-- Python's `state_str[idx] == "s"` test: only the literal field `"s"` matches
(no float-parseable string equals `"s"`). -/
def isSentinel {α : Type} : WireField α → Bool
  | .raw s => s == "s"
  | .num _ => false

/-- Python's `float(item)`: succeeds exactly on numeric fields. -/
def parseFloat {α : Type} : WireField α → Option α
  | .num x => some x
  | .raw _ => none

/-- The scan-and-slice loop of `listen2robot`: take the fields after the first
sentinel, at most `len` of them (`state_str[idx+1 : idx+1+state_length]`);
if no sentinel is found `state_str` is left as the whole split buffer. -/
def selectWindow {α : Type} (len : ℕ) (fields : List (WireField α)) : List (WireField α) :=
  match fields.findIdx? isSentinel with
  | some idx => (fields.drop (idx + 1)).take len
  | none => fields

/-- `[float(item) for item in state_str]`: all-or-nothing numeric parse. -/
def parseAll {α : Type} : List (WireField α) → Option (List α)
  | [] => some []
  | f :: rest =>
    match parseFloat f, parseAll rest with
    | some x, some xs => some (x :: xs)
    | _, _ => none

/-- Body of `listen2robot` up to the state dictionary: slice after the
sentinel, parse all fields, check the expected count (`assert len == ...`);
any failure is the caught `ValueError` / `AssertionError`, i.e. `none`. -/
def listenGeneric {α : Type} (len : ℕ) (fields : List (WireField α)) : Option (List α) :=
  match parseAll (selectWindow len fields) with
  | some v => if v.length = len then some v else none
  | none => none

/-- Decoded telemetry frame of `teleoperate.py` / `replay.py`:
`q`, `dq`, `tau` (7 scalars each) and the Jacobian, reshaped `(7, 6)`
row-major and transposed to 6×7. -/
structure RobotState (α : Type) where
  q : Fin 7 → α
  dq : Fin 7 → α
  tau : Fin 7 → α
  J : Fin 6 → Fin 7 → α

/-- `listen2robot` of `teleoperate.py`/`replay.py`: 63-scalar frame
(`state_length = 7 + 7 + 7 + 42`), assembled into the state dictionary.
Indexing is total (`getD`) because the length-63 guard has already passed. -/
def listen2robot (fields : List (WireField ℚ)) : Option (RobotState ℚ) :=
  match listenGeneric 63 fields with
  | some v =>
    some { q := fun i => v.getD i.val 0
           dq := fun i => v.getD (7 + i.val) 0
           tau := fun i => v.getD (14 + i.val) 0
           J := fun i j => v.getD (21 + 6 * j.val + i.val) 0 }
  | none => none

/-- `listen2robot` of `record.py`: 21-scalar frame (`state_length = 7 + 7 + 7`),
returned as `np.asarray(state_vector)[0:21]`. -/
def listen2robotRecord (fields : List (WireField ℚ)) : Option (List ℚ) :=
  match listenGeneric 21 fields with
  | some v => some (v.take 21)
  | none => none

/-! ### Encode path (`send2robot`): clamp and frame -/

/-- `np.linalg.norm`: the Euclidean norm of a 7-vector. -/
noncomputable def norm7 (v : Fin 7 → ℝ) : ℝ := Real.sqrt (∑ i, v i ^ 2)

/-- The safety clamp of `send2robot`: `if scale > limit:` rescale each
component by `limit / scale`. -/
noncomputable def clampCmd (limit : ℝ) (qdot : Fin 7 → ℝ) : Fin 7 → ℝ :=
  if norm7 qdot > limit then fun i => qdot i * limit / norm7 qdot else qdot

/-- The command frame produced by `send2robot`, as the receiver's field split
would see it: `"s," + <7 formatted components> + ","` splits into the sentinel,
the 7 numeric fields and a trailing empty field.  Decimal formatting
(`np.array2string(..., precision=5, suppress_small=True)`) is modelled as
exact: a formatted field carries the value it prints. -/
noncomputable def send2robot (limit : ℝ) (qdot : Fin 7 → ℝ) : List (WireField ℝ) :=
  WireField.raw "s" :: (List.ofFn (clampCmd limit qdot)).map WireField.num ++ [WireField.raw ""]

/-! ### Mode-toggle automaton (`teleoperate.py` main loop, A-button branch) -/

/-- `END_EFF_DIM = 6`. -/
def END_EFF_DIM : ℕ := 6

/-- Loop-carried state of the A-button branch: `toggle`, `pressed`,
`pressed_time`.  (`pressed_time` is initially `None` in the source but is
written before its first read; the model initialises it to `0`.) -/
structure ModeState where
  toggle : ℕ
  pressed : Bool
  pressedTime : ℚ
  deriving DecidableEq

/-- One joystick sample through the A-button branch, at clock time `t` with
button state `a`:

    if a:
        if not pressed:
            pressed, pressed_time = True, time.time()
            toggle = (toggle + 2) % END_EFF_DIM
        if time.time() - pressed_time > 0.25:
            pressed = False

Both `time.time()` reads are modelled as the sample time `t`. -/
def debounceReset (t : ℚ) (s1 : ModeState) : ModeState :=
  if t - s1.pressedTime > 1/4 then { s1 with pressed := false } else s1

def modeStep (s : ModeState) (t : ℚ) (a : Bool) : ModeState :=
  if a then
    debounceReset t
      (if s.pressed then s
       else { toggle := (s.toggle + 2) % END_EFF_DIM, pressed := true, pressedTime := t })
  else s

/-- `start_time, toggle, pressed, pressed_time = time.time(), 0, False, None`. -/
def initMode : ModeState := { toggle := 0, pressed := false, pressedTime := 0 }

/-- The automaton run over a sequence of `(time, button)` samples. -/
def modeRun (s : ModeState) : List (ℚ × Bool) → ModeState
  | [] => s
  | (t, a) :: rest => modeRun (modeStep s t a) rest

/-- Number of rising edges of the button in a sample sequence, given the
previous button state. -/
def countRising (prev : Bool) : List (ℚ × Bool) → ℕ
  | [] => 0
  | (_, a) :: rest => (if a && !prev then 1 else 0) + countRising a rest

/-- Timestamps of the rising edges of the button in a sample sequence. -/
def risingTimes (prev : Bool) : List (ℚ × Bool) → List ℚ
  | [] => []
  | (t, a) :: rest =>
    if a && !prev then t :: risingTimes a rest else risingTimes a rest

/-! ### Resolved-rate controller (`resolved_rates`, `np.linalg.pinv`)

`np.linalg.pinv(j)` followed by `np.dot(j_inv, xdot)` computes the
Moore–Penrose action: the minimum-norm least-squares solution `q` of
`J q ≈ xdot`.  Modelled from the spec: numpy's SVD-based pseudo-inverse is
external library code; it is embedded by its defining property — `pinvApply f b`
is the least-squares solution of `f q = b` of least Euclidean norm, built from
the orthogonal projection onto `range f` and onto `(ker f)ᗮ`. -/

/-- Domain of the joint-velocity vectors (7 joints). -/
abbrev E7 := EuclideanSpace ℝ (Fin 7)

/-- Space of end-effector twists (6 Cartesian DoF). -/
abbrev E6 := EuclideanSpace ℝ (Fin 6)

/-- The best-approximation right-hand side: the orthogonal projection of `b`
onto `range f`. -/
noncomputable def rangeProj (f : E7 →ₗ[ℝ] E6) (b : E6) : E6 :=
  (orthogonalProjection (LinearMap.range f) b : E6)

/-- `pinv(J) · b`: the minimum-norm least-squares solution, obtained by
projecting any preimage of `rangeProj f b` onto `(ker f)ᗮ`. -/
noncomputable def pinvApply (f : E7 →ₗ[ℝ] E6) (b : E6) : E7 :=
  (orthogonalProjection (LinearMap.ker f)ᗮ
    (LinearMap.mem_range.mp (orthogonalProjection (LinearMap.range f) b).2).choose : E7)

/-- `resolved_rates(xdot, j, scale)`:
`j_inv = np.linalg.pinv(j); [qd * scale for qd in np.dot(j_inv, xdot)]`. -/
noncomputable def resolved_rates (xdot : E6) (j : Matrix (Fin 6) (Fin 7) ℝ) (scale : ℝ) :
    Fin 7 → ℝ :=
  fun i => pinvApply (Matrix.toEuclideanLin j) xdot i * scale

/-! ### Teleoperation loop (`teleoperate.py`, `main`) -/

/-- `JoystickControl.input` dead-band: `if abs(z) < 0.1: z = 0.0`. -/
noncomputable def deadband (z : ℝ) : ℝ := if |z| < 1/10 then 0 else z

/-- The twist assembled by the control branch:
`xdot = np.zeros(6); xdot[toggle] = z[0]; xdot[toggle + 1] = z[1]`.
The two written indices never collide (`toggle + 1 ≠ toggle`), so the array
after the two writes is this function on every in-range index. -/
def twistOf (toggle : ℕ) (z0 z1 : ℝ) : Fin 6 → ℝ :=
  fun k => if k.val = toggle then z0 else if k.val = toggle + 1 then z1 else 0

/-- One loop iteration's inputs: the clock time, the two raw joystick axes
(dead-band not yet applied), the A and START buttons, and the Jacobian of the
freshly read robot state. -/
structure CycleIn where
  t : ℚ
  z0 : ℝ
  z1 : ℝ
  a : Bool
  stop : Bool
  J : Matrix (Fin 6) (Fin 7) ℝ

/-- Observable outcome of one loop iteration. -/
inductive Outcome where
  | exit
  | skip
  | send (cmd : Fin 7 → ℝ)

/-- One iteration of the teleoperation loop body: START exits; the A-button
branch advances the mode automaton and sends nothing; otherwise the
dead-banded axes are placed at `[toggle, toggle+1]` of a zero twist and the
resolved-rate command (scale `0.5`) is sent. -/
noncomputable def cycleStep (s : ModeState) (c : CycleIn) : Outcome × ModeState :=
  if c.stop then (Outcome.exit, s)
  else if c.a then (Outcome.skip, modeStep s c.t true)
  else (Outcome.send (resolved_rates (twistOf s.toggle (deadband c.z0) (deadband c.z1)) c.J (1/2)),
        s)

/-- The teleoperation loop over a list of iteration inputs; a START press
breaks out of the loop, discarding the remaining inputs. -/
noncomputable def teleopRun (s : ModeState) : List CycleIn → List Outcome × ModeState
  | [] => ([], s)
  | c :: rest =>
    let p := cycleStep s c
    if c.stop then ([p.1], p.2)
    else
      let q := teleopRun p.2 rest
      (p.1 :: q.1, q.2)

/-! ### Replay engine (`replay.py`, `replay`) -/

/-- `STEP_TIME = 0.1`. -/
def STEP_TIME : ℚ := 1/10

/-- `EFFECTIVE_HERTZ = 30`. -/
def EFFECTIVE_HERTZ : ℕ := 30

/-- One element of a stored demonstration: a `(state, elapsed)` tuple.  The
recorded state is a flat vector of scalars (its length models `state.size`;
the model is inherently 1-dimensional, matching `state.ndim == 1`). -/
structure DemoStep where
  state : List ℚ
  elapsed : ℚ
  deriving DecidableEq

/-- The two `assert`s guarding each replay step:
`elapsed >= STEP_TIME` and `state.ndim == 1 and state.size == 21`. -/
def validStep (s : DemoStep) : Bool :=
  STEP_TIME ≤ s.elapsed && s.state.length == 21

/-- Externally observable replay actions: `time.sleep` and `send2robot`. -/
inductive REvent where
  | sleep (d : ℚ)
  | send (cmd : List ℚ)
  deriving DecidableEq

/-- `qdot = state[7:14]`: the joint-velocity portion of a recorded step. -/
def stepCmd (s : DemoStep) : List ℚ := (s.state.drop 7).take 7

/-- Actions of one replay step after its asserts pass, by playback mode:
`naive` sends once immediately; `staggered` sleeps for the recorded elapsed
time and sends the identical command `EFFECTIVE_HERTZ` times; any other mode
(including the default `no-sleep`) matches neither branch and sends nothing. -/
def stepEvents (mode : String) (s : DemoStep) : List REvent :=
  if mode = "naive" then [REvent.send (stepCmd s)]
  else if mode = "staggered" then
    REvent.sleep s.elapsed :: List.replicate EFFECTIVE_HERTZ (REvent.send (stepCmd s))
  else []

/-- The replay loop over the selected demonstration: steps are processed in
recorded order; the first step failing an assert aborts the whole replay
(returned flag `true`) before any of its actions — or any later step's — are
performed. -/
def replayRun (mode : String) : List DemoStep → List REvent × Bool
  | [] => ([], false)
  | s :: rest =>
    if validStep s then
      let p := replayRun mode rest
      (stepEvents mode s ++ p.1, p.2)
    else ([], true)

/-! ### Recorder (`record.py`, `record`, mode `"record"`) -/

/-- Inputs consumed by one iteration of the inner collection loop: the raw
frames read by `get_state` until one parses, the `time.time()` value of the
cadence check, and the B-button (stop) state polled at the end. -/
structure RecIter where
  frames : List (List (WireField ℚ))
  currTime : ℚ
  stop : Bool

/-- `get_state`: keep reading until `listen2robot` yields a state. -/
def firstValidRecord : List (List (WireField ℚ)) → Option (List ℚ)
  | [] => none
  | f :: rest =>
    match listen2robotRecord f with
    | some v => some v
    | none => firstValidRecord rest

/-- The inner collection loop of a single demonstration: starting from
`start_time`, each iteration reads a state, appends
`(state, curr_time - start_time)` when the elapsed time has reached
`STEP_TIME` (resetting the cadence timer), then polls the stop button.
An iteration whose reads never produce a valid frame blocks forever in the
source; the model ends the trace there. -/
def recordDemo (startTime : ℚ) : List RecIter → List DemoStep
  | [] => []
  | it :: rest =>
    match firstValidRecord it.frames with
    | none => []
    | some st =>
      if it.currTime - startTime ≥ STEP_TIME then
        if it.stop then [{ state := st, elapsed := it.currTime - startTime }]
        else { state := st, elapsed := it.currTime - startTime } :: recordDemo it.currTime rest
      else
        if it.stop then [] else recordDemo startTime rest

/-- A session's accumulated demonstrations: one `recordDemo` run per start
event, each with its own recording start time and iteration inputs. -/
def recordSession (runs : List (ℚ × List RecIter)) : List (List DemoStep) :=
  runs.map (fun r => recordDemo r.1 r.2)

/-! ## Codec lemmas -/

lemma parseAll_map_num {α : Type} (xs : List α) :
    parseAll (xs.map WireField.num) = some xs := by
  induction xs with
  | nil => rfl
  | cons x xs ih => simp [parseAll, parseFloat, ih]

lemma parseAll_length {α : Type} {l : List (WireField α)} {v : List α}
    (h : parseAll l = some v) : v.length = l.length := by
  induction l generalizing v with
  | nil =>
    simp only [parseAll] at h
    cases h
    rfl
  | cons f rest ih =>
    simp only [parseAll] at h
    cases hf : parseFloat f with
    | none => rw [hf] at h; cases h
    | some x =>
      cases hr : parseAll rest with
      | none => rw [hf, hr] at h; cases h
      | some xs =>
        rw [hf, hr] at h
        cases h
        simp [ih hr]

lemma parseAll_eq_none_iff {α : Type} (l : List (WireField α)) :
    parseAll l = none ↔ ∃ f ∈ l, parseFloat f = none := by
  induction l with
  | nil => simp [parseAll]
  | cons f rest ih =>
    simp only [parseAll]
    cases hf : parseFloat f with
    | none => simp [hf]
    | some x =>
      cases hr : parseAll rest with
      | none => simpa [hf, hr] using ih.mp hr
      | some xs =>
        have : ¬ ∃ g ∈ rest, parseFloat g = none := fun hc => by
          rw [ih.mpr hc] at hr; cases hr
        simp [hf, this]

lemma listenGeneric_eq_none_iff {α : Type} (len : ℕ) (fields : List (WireField α)) :
    listenGeneric len fields = none ↔
      (selectWindow len fields).length ≠ len ∨
        ∃ f ∈ selectWindow len fields, parseFloat f = none := by
  unfold listenGeneric
  cases hp : parseAll (selectWindow len fields) with
  | none =>
    exact iff_of_true rfl (Or.inr ((parseAll_eq_none_iff _).mp hp))
  | some v =>
    have hlen : v.length = (selectWindow len fields).length := parseAll_length hp
    have hnof : ¬ ∃ f ∈ selectWindow len fields, parseFloat f = none := fun hc => by
      rw [(parseAll_eq_none_iff _).mpr hc] at hp; cases hp
    by_cases h : v.length = len
    · refine iff_of_false (by simp [h]) ?_
      rintro (hc | hc)
      · exact hc (hlen.symm.trans h)
      · exact hnof hc
    · exact iff_of_true (by simp [h]) (Or.inl fun hc => h (hlen.trans hc))

lemma listen2robot_eq_none_iff (fields : List (WireField ℚ)) :
    listen2robot fields = none ↔ listenGeneric 63 fields = none := by
  unfold listen2robot
  cases h : listenGeneric 63 fields <;> simp [h]

lemma selectWindow_no_sentinel {α : Type} (len : ℕ) {fields : List (WireField α)}
    (h : fields.all (fun f => !isSentinel f) = true) :
    selectWindow len fields = fields := by
  unfold selectWindow
  have : fields.findIdx? isSentinel = none :=
    List.findIdx?_eq_none_iff.mpr (by simpa using h)
  rw [this]

/-- The sentinel scan over a framed command message selects exactly the
payload fields. -/
lemma selectWindow_frame {α : Type} (xs : List α) :
    selectWindow xs.length (WireField.raw "s" :: xs.map WireField.num ++ [WireField.raw ""])
      = xs.map WireField.num := by
  have hfind :
      (WireField.raw (α := α) "s" :: xs.map WireField.num ++ [WireField.raw ""]).findIdx?
        isSentinel = some 0 := rfl
  unfold selectWindow
  rw [hfind]
  show (xs.map (WireField.num (α := α)) ++ [WireField.raw ""]).take xs.length
      = xs.map WireField.num
  rw [show xs.length = (xs.map (WireField.num (α := α))).length by simp]
  exact List.take_left _ _

/-- Decoding the framed command message: the sentinel is found at index `0`,
the window is exactly the payload, and every payload field parses. -/
lemma listenGeneric_frame {α : Type} (xs : List α) :
    listenGeneric xs.length (WireField.raw "s" :: xs.map WireField.num ++ [WireField.raw ""])
      = some xs := by
  unfold listenGeneric
  rw [selectWindow_frame, parseAll_map_num]
  simp

/-! ## Norm and clamp lemmas -/

lemma norm7_nonneg (v : Fin 7 → ℝ) : 0 ≤ norm7 v := Real.sqrt_nonneg _

lemma norm7_smul (c : ℝ) (v : Fin 7 → ℝ) :
    norm7 (fun i => c * v i) = |c| * norm7 v := by
  unfold norm7
  rw [show (∑ i, (c * v i) ^ 2) = c ^ 2 * ∑ i, v i ^ 2 by
        rw [Finset.mul_sum]; exact Finset.sum_congr rfl fun i _ => by ring,
      Real.sqrt_mul (sq_nonneg c), Real.sqrt_sq_eq_abs]

/-- C1: Codec round-trip with clamp.  For every 7-vector `v` of norm at most
the limit (default `1.5`), decoding the encoded command frame (with the
decoder's sentinel-scan at the command payload length) reconstructs `v`
exactly — the model treats the 5-digit formatting as exact, so
"within formatting precision" becomes equality.  For `‖v‖ > 1.5` the encoder
silently rescales: the decoded vector is a positive multiple of `v` (same
direction) whose norm is exactly the limit.  Both branches are total: the
clamp never raises. -/
theorem codec_roundtrip_clamp (v : Fin 7 → ℝ) :
    (norm7 v ≤ 3/2 →
      listenGeneric 7 (send2robot (3/2) v) = some (List.ofFn v)) ∧
    (norm7 v > 3/2 →
      ∃ c : ℝ, 0 < c ∧
        listenGeneric 7 (send2robot (3/2) v) = some (List.ofFn (fun i => c * v i)) ∧
        norm7 (fun i => c * v i) = 3/2) := by
  constructor
  · intro hle
    have hclamp : clampCmd (3/2) v = v := by
      unfold clampCmd
      rw [if_neg (not_lt.mpr hle)]
    have := listenGeneric_frame (List.ofFn v)
    rw [List.length_ofFn] at this
    unfold send2robot
    rw [hclamp]
    exact this
  · intro hgt
    have hpos : 0 < norm7 v := lt_trans (by norm_num) hgt
    have hcpos : 0 < 3/2 / norm7 v := div_pos (by norm_num) hpos
    refine ⟨3/2 / norm7 v, hcpos, ?_, ?_⟩
    · have hclamp : clampCmd (3/2) v = fun i => 3/2 / norm7 v * v i := by
        unfold clampCmd
        rw [if_pos hgt]
        funext i
        ring
      have := listenGeneric_frame (List.ofFn (fun i => 3/2 / norm7 v * v i))
      rw [List.length_ofFn] at this
      unfold send2robot
      rw [hclamp]
      exact this
    · rw [norm7_smul, abs_of_pos hcpos, div_mul_cancel₀]
      exact ne_of_gt hpos

/-- Witness for `codec_roundtrip_clamp` at the zero command. -/
theorem codec_roundtrip_clamp_witness :
    norm7 (fun _ => 0) ≤ 3/2 ∧
      listenGeneric 7 (send2robot (3/2) (fun _ => 0))
        = some (List.ofFn (fun (_ : Fin 7) => (0 : ℝ))) := by
  have h : norm7 (fun _ => 0) ≤ 3/2 := by
    unfold norm7
    simp
    norm_num
  exact ⟨h, (codec_roundtrip_clamp (fun _ => 0)).1 h⟩

/-- C2 counterexample: a buffer of exactly 63 numeric fields with no sentinel
token decodes to a state, contradicting "a buffer lacking the sentinel always
yields no valid frame". -/
theorem decode_no_sentinel_counterexample :
    ((List.replicate 63 (WireField.num (0 : ℚ))).all (fun f => !isSentinel f) = true) ∧
      (listen2robot (List.replicate 63 (WireField.num (0 : ℚ)))).isSome = true := by
  constructor
  · decide
  · decide

/-- C2 amended: decoding yields no frame exactly when the selected window —
the fields after the first sentinel when a sentinel is present, the entire
buffer otherwise — does not consist of exactly 63 numerically parseable
fields.  In particular a sentinel-bearing buffer with fewer than 63 fields
after the sentinel, or any unparseable field in the window, yields `none`;
but a sentinel-free buffer of exactly 63 numeric fields decodes successfully.
Decoding is a total function (never raises), and a successful decode always
consumed a fully parsed 63-field window (no partial state). -/
theorem decode_robustness_amended (fields : List (WireField ℚ)) :
    (listen2robot fields = none ↔
      (selectWindow 63 fields).length ≠ 63 ∨
        ∃ f ∈ selectWindow 63 fields, parseFloat f = none) ∧
    (fields.all (fun f => !isSentinel f) = true → selectWindow 63 fields = fields) := by
  exact ⟨(listen2robot_eq_none_iff fields).trans (listenGeneric_eq_none_iff 63 fields),
    selectWindow_no_sentinel 63⟩

/-- Witness for `decode_robustness_amended`: a sentinel-free two-field buffer
has the whole buffer as window, and (being shorter than 63 fields) decodes to
`none`. -/
theorem decode_robustness_amended_witness :
    selectWindow 63 [WireField.num (1 : ℚ), WireField.raw "x"]
        = [WireField.num (1 : ℚ), WireField.raw "x"] ∧
      listen2robot [WireField.num (1 : ℚ), WireField.raw "x"] = none := by
  refine ⟨(decode_robustness_amended _).2 (by decide), ?_⟩
  exact (decode_robustness_amended _).1.mpr (by decide)

/-! ## Mode-toggle automaton lemmas -/

/-- A sample sequence of single-sample presses. -/
def pulses (ts : List ℚ) : List (ℚ × Bool) := ts.map (fun t => (t, true))

/-- Concrete sample sequence: two single-sample presses of the mode button,
one second apart (well beyond the 0.25 s debounce window), with a release
sample between them. -/
def twoPressSamples : List (ℚ × Bool) := [(0, true), (1/2, false), (1, true)]

lemma modeRun_twoPress :
    modeRun initMode twoPressSamples
      = { toggle := 2, pressed := false, pressedTime := 0 } := by
  have h1 : modeStep initMode 0 true
      = { toggle := 2, pressed := true, pressedTime := 0 } := by
    show (if (0 : ℚ) - 0 > 1/4
          then ({ toggle := 2, pressed := false, pressedTime := 0 } : ModeState)
          else { toggle := 2, pressed := true, pressedTime := 0 })
        = { toggle := 2, pressed := true, pressedTime := 0 }
    rw [if_neg (by norm_num)]
  have h3 : modeStep { toggle := 2, pressed := true, pressedTime := 0 } 1 true
      = { toggle := 2, pressed := false, pressedTime := 0 } := by
    show (if (1 : ℚ) - 0 > 1/4
          then ({ toggle := 2, pressed := false, pressedTime := 0 } : ModeState)
          else { toggle := 2, pressed := true, pressedTime := 0 })
        = { toggle := 2, pressed := false, pressedTime := 0 }
    rw [if_pos (by norm_num)]
  show modeRun (modeStep (modeStep (modeStep initMode 0 true) (1/2) false) 1 true) []
      = { toggle := 2, pressed := false, pressedTime := 0 }
  rw [h1]
  rw [show modeStep { toggle := 2, pressed := true, pressedTime := 0 } (1/2) false
        = { toggle := 2, pressed := true, pressedTime := 0 } from rfl]
  rw [h3]
  rfl

/-- C3 counterexample: `twoPressSamples` contains 2 rising edges spaced 1 s
(≥ 0.25 s) apart, yet the automaton advances the mode only once (toggle `2`),
not by `2·2 mod 6 = 4`: the second press's first sample finds the `pressed`
flag still set (it is only ever cleared by a sample with the button down),
so that press registers no advance. -/
theorem mode_toggle_counterexample :
    countRising false twoPressSamples = 2 ∧
    List.Chain' (fun a b : ℚ => b - a ≥ 1/4) (risingTimes false twoPressSamples) ∧
    (modeRun initMode twoPressSamples).toggle = 2 ∧
    (modeRun initMode twoPressSamples).toggle
      ≠ (2 * countRising false twoPressSamples) % 6 := by
  have hc : countRising false twoPressSamples = 2 := rfl
  have hrt : risingTimes false twoPressSamples = [0, 1] := rfl
  have hm : (modeRun initMode twoPressSamples).toggle = 2 := by rw [modeRun_twoPress]
  refine ⟨hc, ?_, hm, ?_⟩
  · rw [hrt]
    norm_num [List.chain'_cons]
  · rw [hm, hc]
    norm_num

lemma toggle_mod_add (g k : ℕ) : ((g + 2) % 6 + 2 * k) % 6 = (g + 2 * (k + 1)) % 6 := by
  omega

/-- Simultaneous characterisation of a run over a gap-separated pulse train,
from a pressed (`P`) and an un-pressed (`Q`) starting state. -/
lemma modeRun_pulses (ts : List ℚ) :
    (∀ g t0, g < 6 → List.Chain' (fun a b : ℚ => b - a > 1/4) (t0 :: ts) →
      (modeRun { toggle := g, pressed := true, pressedTime := t0 } (pulses ts)).toggle
        = (g + 2 * (ts.length / 2)) % 6) ∧
    (∀ g pt, g < 6 → List.Chain' (fun a b : ℚ => b - a > 1/4) ts →
      (modeRun { toggle := g, pressed := false, pressedTime := pt } (pulses ts)).toggle
        = (g + 2 * ((ts.length + 1) / 2)) % 6) := by
  induction ts with
  | nil =>
    refine ⟨fun g t0 hg _ => ?_, fun g pt hg _ => ?_⟩ <;>
      simp [pulses, modeRun, Nat.mod_eq_of_lt hg]
  | cons t ts ih =>
    constructor
    · intro g t0 hg hchain
      have hgap : t - t0 > 1/4 := (List.chain'_cons.mp hchain).1
      have hchain' : List.Chain' (fun a b : ℚ => b - a > 1/4) ts :=
        List.Chain'.tail (List.chain'_cons.mp hchain).2
      have hstep :
          modeStep { toggle := g, pressed := true, pressedTime := t0 } t true
            = { toggle := g, pressed := false, pressedTime := t0 } := by
        show (if t - t0 > 1/4
              then ({ toggle := g, pressed := false, pressedTime := t0 } : ModeState)
              else { toggle := g, pressed := true, pressedTime := t0 })
            = { toggle := g, pressed := false, pressedTime := t0 }
        rw [if_pos hgap]
      have hrun :
          modeRun { toggle := g, pressed := true, pressedTime := t0 } (pulses (t :: ts))
            = modeRun { toggle := g, pressed := false, pressedTime := t0 } (pulses ts) := by
        show modeRun (modeStep { toggle := g, pressed := true, pressedTime := t0 } t true)
              (pulses ts)
            = modeRun { toggle := g, pressed := false, pressedTime := t0 } (pulses ts)
        rw [hstep]
      rw [hrun, ih.2 g t0 hg hchain']
      simp only [List.length_cons]
    · intro g pt hg hchain
      have hstep :
          modeStep { toggle := g, pressed := false, pressedTime := pt } t true
            = { toggle := (g + 2) % 6, pressed := true, pressedTime := t } := by
        show (if t - t > 1/4
              then ({ toggle := (g + 2) % 6, pressed := false, pressedTime := t } : ModeState)
              else { toggle := (g + 2) % 6, pressed := true, pressedTime := t })
            = { toggle := (g + 2) % 6, pressed := true, pressedTime := t }
        rw [if_neg (by rw [sub_self]; norm_num)]
      have hrun :
          modeRun { toggle := g, pressed := false, pressedTime := pt } (pulses (t :: ts))
            = modeRun { toggle := (g + 2) % 6, pressed := true, pressedTime := t }
                (pulses ts) := by
        show modeRun (modeStep { toggle := g, pressed := false, pressedTime := pt } t true)
              (pulses ts)
            = modeRun { toggle := (g + 2) % 6, pressed := true, pressedTime := t } (pulses ts)
        rw [hstep]
      rw [hrun, ih.1 ((g + 2) % 6) t (Nat.mod_lt _ (by norm_num)) hchain]
      rw [toggle_mod_add]
      simp only [List.length_cons]
      congr 1
      omega

/-- C3 amended: the debounce flag turns the press automaton into a
two-beat cycle for isolated (single-sample) presses.  For a train of `N`
single-sample presses pairwise separated by more than 0.25 s, starting from
the initial state, the mode advances by `2·⌈N/2⌉ mod 6` — odd-numbered
presses advance, even-numbered presses merely clear the flag — not by
`2·N mod 6`. -/
theorem mode_toggle_amended (ts : List ℚ)
    (h : List.Chain' (fun a b : ℚ => b - a > 1/4) ts) :
    (modeRun initMode (pulses ts)).toggle = (2 * ((ts.length + 1) / 2)) % 6 := by
  have := (modeRun_pulses ts).2 0 0 (by norm_num) h
  simpa [initMode] using this

/-- Witness for `mode_toggle_amended`: three presses at times 0, 1, 2 advance
the mode `⌈3/2⌉ = 2` times, to toggle `4`. -/
theorem mode_toggle_amended_witness :
    List.Chain' (fun a b : ℚ => b - a > 1/4) [0, 1, 2] ∧
      (modeRun initMode (pulses [0, 1, 2])).toggle = 4 := by
  have h : List.Chain' (fun a b : ℚ => b - a > 1/4) [0, 1, 2] := by
    norm_num [List.chain'_cons]
  exact ⟨h, (mode_toggle_amended [0, 1, 2] h).trans (by norm_num)⟩

/-! ## Teleoperation loop lemmas -/

lemma debounceReset_toggle (t : ℚ) (s1 : ModeState) :
    (debounceReset t s1).toggle = s1.toggle := by
  unfold debounceReset
  split_ifs <;> rfl

lemma modeStep_toggle_cases (s : ModeState) (t : ℚ) (a : Bool) :
    (modeStep s t a).toggle = s.toggle ∨ (modeStep s t a).toggle = (s.toggle + 2) % 6 := by
  unfold modeStep
  cases a with
  | false => exact Or.inl rfl
  | true =>
    rw [if_pos rfl, debounceReset_toggle]
    by_cases hp : s.pressed
    · rw [if_pos hp]
      exact Or.inl rfl
    · rw [if_neg hp]
      exact Or.inr rfl

/-- The set of reachable toggle offsets. -/
def Mode3 (g : ℕ) : Prop := g = 0 ∨ g = 2 ∨ g = 4

lemma mode3_step {g : ℕ} (h : Mode3 g) : Mode3 ((g + 2) % 6) := by
  rcases h with h | h | h <;> subst h <;> norm_num [Mode3]

lemma modeStep_mode3 (s : ModeState) (t : ℚ) (a : Bool) (h : Mode3 s.toggle) :
    Mode3 (modeStep s t a).toggle := by
  rcases modeStep_toggle_cases s t a with he | he <;> rw [he]
  · exact h
  · exact mode3_step h

lemma cycleStep_state_cases (s : ModeState) (c : CycleIn) :
    (cycleStep s c).2 = s ∨ (cycleStep s c).2 = modeStep s c.t true := by
  unfold cycleStep
  split_ifs <;> first | exact Or.inl rfl | exact Or.inr rfl

lemma teleopRun_mode3 (inputs : List CycleIn) :
    ∀ s : ModeState, Mode3 s.toggle → Mode3 ((teleopRun s inputs).2).toggle := by
  induction inputs with
  | nil => exact fun s h => h
  | cons c rest ih =>
    intro s h
    have hstate : Mode3 ((cycleStep s c).2).toggle := by
      rcases cycleStep_state_cases s c with he | he <;> rw [he]
      · exact h
      · exact modeStep_mode3 s c.t true h
    by_cases hs : c.stop
    · simp only [teleopRun, hs, if_true]
      exact hstate
    · simp only [teleopRun, hs, if_false]
      exact ih _ hstate

/-- C10: throughout the teleoperation loop, starting from mode state 0, the
toggle offset only ever takes values in `{0, 2, 4}` (every reachable state is
the final state of the run over some input prefix), so the twist writes at
indices `toggle` and `toggle + 1` stay inside the 6-element twist vector. -/
theorem toggle_always_in_bounds (inputs : List CycleIn) :
    ((teleopRun initMode inputs).2.toggle = 0 ∨
      (teleopRun initMode inputs).2.toggle = 2 ∨
      (teleopRun initMode inputs).2.toggle = 4) ∧
    (teleopRun initMode inputs).2.toggle + 1 < END_EFF_DIM := by
  have h : Mode3 ((teleopRun initMode inputs).2).toggle :=
    teleopRun_mode3 inputs initMode (Or.inl rfl)
  refine ⟨h, ?_⟩
  rcases h with h | h | h <;> rw [h] <;> norm_num [END_EFF_DIM]

/-- First cycle of a held press: A-button down, START up, at time 0. -/
noncomputable def heldPressCycle1 : CycleIn :=
  { t := 0, z0 := 1/2, z1 := 0, a := true, stop := false, J := 0 }

/-- Second cycle of the same held press, one polling period later. -/
noncomputable def heldPressCycle2 : CycleIn :=
  { t := 1/10, z0 := 1/2, z1 := 0, a := true, stop := false, J := 0 }

/-- C4 counterexample: with the A-button held across two cycles (neither is a
stop cycle, and the second is not a fresh press — the button was already down
and the mode does not advance again), the loop sends no command in either
cycle: the second cycle is skipped too, although the claim requires exactly
one command in every non-stop, non-freshly-pressed cycle. -/
theorem teleop_cycle_counterexample :
    heldPressCycle1.a = true ∧ heldPressCycle2.a = true ∧
    heldPressCycle2.stop = false ∧
    (teleopRun initMode [heldPressCycle1, heldPressCycle2]).1
      = [Outcome.skip, Outcome.skip] ∧
    (teleopRun initMode [heldPressCycle1, heldPressCycle2]).2
      = { toggle := 2, pressed := true, pressedTime := 0 } := by
  have h1 : modeStep initMode 0 true
      = { toggle := 2, pressed := true, pressedTime := 0 } := by
    show (if (0 : ℚ) - 0 > 1/4
          then ({ toggle := 2, pressed := false, pressedTime := 0 } : ModeState)
          else { toggle := 2, pressed := true, pressedTime := 0 })
        = { toggle := 2, pressed := true, pressedTime := 0 }
    rw [if_neg (by norm_num)]
  have h2 : modeStep { toggle := 2, pressed := true, pressedTime := 0 } (1/10) true
      = { toggle := 2, pressed := true, pressedTime := 0 } := by
    show (if (1/10 : ℚ) - 0 > 1/4
          then ({ toggle := 2, pressed := false, pressedTime := 0 } : ModeState)
          else { toggle := 2, pressed := true, pressedTime := 0 })
        = { toggle := 2, pressed := true, pressedTime := 0 }
    rw [if_neg (by norm_num)]
  refine ⟨rfl, rfl, rfl, rfl, ?_⟩
  show modeStep (modeStep initMode 0 true) (1/10) true
      = { toggle := 2, pressed := true, pressedTime := 0 }
  rw [h1, h2]

/-- C4 amended: per-cycle contract of the teleoperation loop.  If the stop
button is asserted the loop terminates at once with no command sent and the
remaining inputs discarded.  Otherwise a command is skipped in every cycle in
which the mode button is down (freshly pressed or held), the mode automaton
stepping once.  In every other cycle exactly one joint-velocity command is
sent, computed by the resolved-rate controller (scale 0.5) from the twist
whose components at `toggle` and `toggle + 1` are the two dead-banded axis
values (an axis of magnitude below 0.1 snaps to exactly 0) and whose other
components are zero. -/
theorem teleop_cycle_amended (s : ModeState) (c : CycleIn) (rest : List CycleIn) :
    (c.stop = true → teleopRun s (c :: rest) = ([Outcome.exit], s)) ∧
    (c.stop = false → c.a = true →
      teleopRun s (c :: rest)
        = (Outcome.skip :: (teleopRun (modeStep s c.t true) rest).1,
           (teleopRun (modeStep s c.t true) rest).2)) ∧
    (c.stop = false → c.a = false →
      teleopRun s (c :: rest)
        = (Outcome.send (resolved_rates
              (twistOf s.toggle (deadband c.z0) (deadband c.z1)) c.J (1/2))
            :: (teleopRun s rest).1,
           (teleopRun s rest).2)) ∧
    (∀ z : ℝ, |z| < 1/10 → deadband z = 0) ∧
    (∀ (g : ℕ) (z0 z1 : ℝ) (k : Fin 6),
      (k.val = g → twistOf g z0 z1 k = z0) ∧
      (k.val = g + 1 → twistOf g z0 z1 k = z1) ∧
      (k.val ≠ g → k.val ≠ g + 1 → twistOf g z0 z1 k = 0)) := by
  refine ⟨fun hstop => ?_, fun hstop ha => ?_, fun hstop ha => ?_,
    fun z hz => ?_, fun g z0 z1 k => ⟨fun hk => ?_, fun hk => ?_, fun hk1 hk2 => ?_⟩⟩
  · simp [teleopRun, cycleStep, hstop]
  · simp [teleopRun, cycleStep, hstop, ha]
  · simp [teleopRun, cycleStep, hstop, ha]
  · unfold deadband
    rw [if_pos hz]
  · unfold twistOf
    rw [if_pos hk]
  · unfold twistOf
    rw [if_neg (by omega), if_pos hk]
  · unfold twistOf
    rw [if_neg hk1, if_neg hk2]

/-- Stop-cycle input: START pressed. -/
noncomputable def stopCycle : CycleIn :=
  { t := 0, z0 := 0, z1 := 0, a := false, stop := true, J := 0 }

/-- Plain control cycle: no buttons pressed. -/
noncomputable def controlCycle : CycleIn :=
  { t := 0, z0 := 1, z1 := 0, a := false, stop := false, J := 0 }

/-- Witness for `teleop_cycle_amended` on concrete cycles of all three kinds,
plus the dead-band at the sub-threshold axis value 0.05. -/
theorem teleop_cycle_amended_witness :
    teleopRun initMode [stopCycle] = ([Outcome.exit], initMode) ∧
    (teleopRun initMode [heldPressCycle1]).1
      = Outcome.skip :: (teleopRun (modeStep initMode heldPressCycle1.t true) []).1 ∧
    teleopRun initMode [controlCycle]
      = ([Outcome.send (resolved_rates
            (twistOf initMode.toggle (deadband controlCycle.z0) (deadband controlCycle.z1))
            controlCycle.J (1/2))], initMode) ∧
    deadband (1/20 : ℝ) = 0 := by
  refine ⟨(teleop_cycle_amended initMode stopCycle []).1 rfl, ?_, ?_, ?_⟩
  · exact congrArg Prod.fst
      ((teleop_cycle_amended initMode heldPressCycle1 []).2.1 rfl rfl)
  · exact ((teleop_cycle_amended initMode controlCycle []).2.2.1 rfl rfl).trans rfl
  · exact (teleop_cycle_amended initMode stopCycle []).2.2.2.1 (1/20)
      (by rw [abs_lt]; constructor <;> norm_num)

/-! ## Replay engine lemmas -/

/-- C5: replay precondition checking.  The replay loop validates each step in
recorded order; it aborts (flag `true`) if and only if some step violates a
precondition (elapsed time below 0.1 s, or a state vector without exactly 21
scalars), and the actions performed are exactly those of the maximal valid
prefix — the offending step's command, and every later step's, are never
issued.  A demonstration whose every step is valid never aborts. -/
theorem replay_precondition (mode : String) (steps : List DemoStep) :
    replayRun mode steps
      = ((steps.takeWhile validStep).flatMap (stepEvents mode),
         steps.any (fun s => !validStep s)) ∧
    ((∀ s ∈ steps, validStep s = true) → (replayRun mode steps).2 = false) := by
  have key : ∀ l : List DemoStep,
      replayRun mode l
        = ((l.takeWhile validStep).flatMap (stepEvents mode),
           l.any (fun s => !validStep s)) := by
    intro l
    induction l with
    | nil => rfl
    | cons s rest ih =>
      by_cases hv : validStep s
      · simp only [replayRun, hv, if_true, ih, List.takeWhile_cons, List.any_cons,
          List.flatMap_cons, hv, Bool.not_true, Bool.false_or]
      · have hv' : validStep s = false := by
          cases h : validStep s
          · rfl
          · exact absurd h hv
        simp only [replayRun, hv', Bool.false_eq_true, if_false, List.takeWhile_cons, hv',
          List.any_cons, Bool.not_false, Bool.true_or, List.flatMap_nil]
  refine ⟨key steps, fun hall => ?_⟩
  rw [key steps]
  simp only [List.any_eq_false]
  intro s hs
  rw [hall s hs]
  simp

/-- Concrete all-valid two-step demonstration. -/
def demoValid : List DemoStep :=
  [{ state := List.replicate 21 (0 : ℚ), elapsed := 1/10 },
   { state := List.replicate 21 (1 : ℚ), elapsed := 1/5 }]

/-- Witness for `replay_precondition`: an all-valid two-step demonstration
does not abort. -/
theorem replay_precondition_witness :
    (∀ s ∈ demoValid, validStep s = true) ∧
      (replayRun "naive" demoValid).2 = false := by
  have hall : ∀ s ∈ demoValid, validStep s = true := by
    intro s hs
    simp only [demoValid, List.mem_cons, List.not_mem_nil, or_false] at hs
    rcases hs with rfl | rfl <;> norm_num [validStep, STEP_TIME]
  exact ⟨hall, (replay_precondition "naive" demoValid).2 hall⟩

/-- C6: naive replay.  Replaying an all-valid `n`-step demonstration under
the `naive` policy issues exactly `n` velocity commands, one per step in
recorded order with no sleeps and nothing skipped or reordered, each command
being components `[7:14)` of that step's recorded state. -/
theorem replay_naive (steps : List DemoStep) (h : ∀ s ∈ steps, validStep s = true) :
    replayRun "naive" steps
      = (steps.map (fun s => REvent.send (stepCmd s)), false) := by
  induction steps with
  | nil => rfl
  | cons s rest ih =>
    have hs : validStep s = true := h s (List.mem_cons_self s rest)
    have hrest := ih (fun r hr => h r (List.mem_cons_of_mem s hr))
    simp only [replayRun, hs, if_true, hrest, List.map_cons]
    rfl

/-- Ascending 21-scalar state vector starting at `off`. -/
def rampState (off : ℚ) : List ℚ :=
  [off, off + 1, off + 2, off + 3, off + 4, off + 5, off + 6, off + 7, off + 8,
   off + 9, off + 10, off + 11, off + 12, off + 13, off + 14, off + 15, off + 16,
   off + 17, off + 18, off + 19, off + 20]

/-- Concrete 3-step demonstration with distinguishable states, recorded at
the 0.1 s cadence. -/
def demoNaive : List DemoStep :=
  [{ state := rampState 0, elapsed := 1/10 },
   { state := rampState 100, elapsed := 1/10 },
   { state := rampState 200, elapsed := 1/10 }]

/-- Witness for `replay_naive`: the 3-step demonstration issues exactly its
three `[7:14)` slices, in order. -/
theorem replay_naive_witness :
    (∀ s ∈ demoNaive, validStep s = true) ∧
      replayRun "naive" demoNaive
        = ([REvent.send [7, 8, 9, 10, 11, 12, 13],
            REvent.send [107, 108, 109, 110, 111, 112, 113],
            REvent.send [207, 208, 209, 210, 211, 212, 213]], false) := by
  have hall : ∀ s ∈ demoNaive, validStep s = true := by
    intro s hs
    simp only [demoNaive, List.mem_cons, List.not_mem_nil, or_false] at hs
    rcases hs with rfl | rfl | rfl <;> norm_num [validStep, STEP_TIME, rampState]
  refine ⟨hall, (replay_naive demoNaive hall).trans ?_⟩
  norm_num [demoNaive, stepCmd, rampState]

/-- C7: staggered replay.  Replaying an all-valid demonstration under the
`staggered` policy processes steps in recorded order; each step first sleeps
for exactly its recorded elapsed time and then issues `EFFECTIVE_HERTZ = 30`
identical velocity commands (the step's `[7:14)` slice), independently of the
elapsed value. -/
theorem replay_staggered (steps : List DemoStep) (h : ∀ s ∈ steps, validStep s = true) :
    replayRun "staggered" steps
      = (steps.flatMap (fun s =>
          REvent.sleep s.elapsed :: List.replicate EFFECTIVE_HERTZ (REvent.send (stepCmd s))),
         false) ∧
    EFFECTIVE_HERTZ = 30 := by
  refine ⟨?_, rfl⟩
  induction steps with
  | nil => rfl
  | cons s rest ih =>
    have hs : validStep s = true := h s (List.mem_cons_self s rest)
    have hrest := ih (fun r hr => h r (List.mem_cons_of_mem s hr))
    simp only [replayRun, hs, if_true, hrest, List.flatMap_cons]
    rfl

/-- Concrete one-step demonstration for staggered playback. -/
def demoStaggered : List DemoStep := [{ state := rampState 0, elapsed := 3/10 }]

/-- Witness for `replay_staggered`: the one-step demonstration sleeps once
for the recorded elapsed time (0.3 s) and sends the same command 30 times. -/
theorem replay_staggered_witness :
    (∀ s ∈ demoStaggered, validStep s = true) ∧
      replayRun "staggered" demoStaggered
        = (REvent.sleep (3/10)
            :: List.replicate 30 (REvent.send [7, 8, 9, 10, 11, 12, 13]), false) := by
  have hall : ∀ s ∈ demoStaggered, validStep s = true := by
    intro s hs
    simp only [demoStaggered, List.mem_cons, List.not_mem_nil, or_false] at hs
    rcases hs with rfl
    norm_num [validStep, STEP_TIME, rampState]
  refine ⟨hall, ((replay_staggered demoStaggered hall).1).trans ?_⟩
  norm_num [demoStaggered, stepCmd, rampState, EFFECTIVE_HERTZ]

/-! ## Recorder lemmas -/

lemma listenGeneric_length {α : Type} {len : ℕ} {fields : List (WireField α)} {v : List α}
    (h : listenGeneric len fields = some v) : v.length = len := by
  unfold listenGeneric at h
  split at h
  · split at h
    · cases h
      assumption
    · cases h
  · cases h

lemma listen2robotRecord_length {fields : List (WireField ℚ)} {v : List ℚ}
    (h : listen2robotRecord fields = some v) : v.length = 21 := by
  unfold listen2robotRecord at h
  cases hg : listenGeneric 21 fields with
  | none => rw [hg] at h; cases h
  | some w =>
    rw [hg] at h
    cases h
    have hw := listenGeneric_length hg
    simp [List.length_take, hw]

lemma firstValidRecord_length {frames : List (List (WireField ℚ))} {v : List ℚ}
    (h : firstValidRecord frames = some v) : v.length = 21 := by
  induction frames with
  | nil => cases h
  | cons f rest ih =>
    unfold firstValidRecord at h
    cases hf : listen2robotRecord f with
    | none => rw [hf] at h; exact ih h
    | some w =>
      rw [hf] at h
      cases h
      exact listen2robotRecord_length hf

lemma recordDemo_invariant (iters : List RecIter) :
    ∀ (startTime : ℚ) (step : DemoStep), step ∈ recordDemo startTime iters →
      validStep step = true := by
  induction iters with
  | nil =>
    intro startTime step h
    cases h
  | cons it rest ih =>
    intro startTime step h
    unfold recordDemo at h
    split at h
    · cases h
    next st hf =>
      have hv : it.currTime - startTime ≥ STEP_TIME →
          validStep { state := st, elapsed := it.currTime - startTime } = true := by
        intro hel
        simp [validStep, hel, firstValidRecord_length hf]
      split at h
      next hel =>
        split at h
        · rcases List.mem_singleton.mp h with rfl
          exact hv hel
        · rcases List.mem_cons.mp h with rfl | h'
          · exact hv hel
          · exact ih it.currTime step h'
      next hel =>
        split at h
        · cases h
        · exact ih startTime step h

/-- C9: recorder step invariant.  Every step of every demonstration
accumulated in a recording session has elapsed time at least the 0.1 s
sampling interval and a state vector of exactly 21 scalars — each appended
state comes from a successful 21-field parse and each append is guarded by
the cadence check — so freshly recorded data satisfies the replay engine's
per-step precondition (`validStep`) by construction. -/
theorem recorder_step_invariant (runs : List (ℚ × List RecIter)) :
    ∀ demo ∈ recordSession runs, ∀ step ∈ demo, validStep step = true := by
  intro demo hdemo step hstep
  rw [recordSession, List.mem_map] at hdemo
  obtain ⟨r, _, rfl⟩ := hdemo
  exact recordDemo_invariant r.2 r.1 step hstep

/-- A well-formed 21-scalar telemetry frame for the recorder. -/
def recFrame : List (WireField ℚ) :=
  WireField.raw "s" :: List.replicate 21 (WireField.num 5)

/-- One recorder iteration that samples at time 1 and then stops. -/
def recIter0 : RecIter := { frames := [recFrame], currTime := 1, stop := true }

/-- A one-demonstration session input. -/
def recRuns : List (ℚ × List RecIter) := [(0, [recIter0])]

/-- The step that session records. -/
def recStep0 : DemoStep := { state := List.replicate 21 5, elapsed := 1 }

/-- Witness for `recorder_step_invariant` on a concrete one-step session. -/
theorem recorder_step_invariant_witness : validStep recStep0 = true := by
  have hd : recordDemo 0 [recIter0] = [recStep0] := by
    show (if (1 : ℚ) - 0 ≥ STEP_TIME
          then [({ state := List.replicate 21 5, elapsed := (1 : ℚ) - 0 } : DemoStep)]
          else []) = [recStep0]
    rw [if_pos (by norm_num [STEP_TIME])]
    norm_num [recStep0]
  have hsess : recordSession recRuns = [[recStep0]] := by
    unfold recordSession recRuns
    simp only [List.map]
    rw [hd]
  exact recorder_step_invariant recRuns [recStep0]
    (by rw [hsess]; exact List.mem_singleton_self _)
    recStep0 (List.mem_singleton_self _)

/-! ## Resolved-rate controller lemmas -/

lemma pinvApply_mem (f : E7 →ₗ[ℝ] E6) (b : E6) :
    pinvApply f b ∈ (LinearMap.ker f)ᗮ := (orthogonalProjection _ _).2

lemma proj_ker_orth_maps (f : E7 →ₗ[ℝ] E6) (x : E7) :
    f (orthogonalProjection (LinearMap.ker f)ᗮ x : E7) = f x := by
  have hdecomp := orthogonalProjection_add_orthogonalProjection_orthogonal (LinearMap.ker f) x
  have hker : f (orthogonalProjection (LinearMap.ker f) x : E7) = 0 :=
    LinearMap.mem_ker.mp (orthogonalProjection (LinearMap.ker f) x).2
  conv_rhs => rw [← hdecomp]
  rw [map_add, hker, zero_add]

lemma pinvApply_maps (f : E7 →ₗ[ℝ] E6) (b : E6) :
    f (pinvApply f b) = rangeProj f b := by
  unfold pinvApply
  rw [proj_ker_orth_maps]
  exact (LinearMap.mem_range.mp (orthogonalProjection (LinearMap.range f) b).2).choose_spec

lemma le_of_sq_le_sq' {a b : ℝ} (_ha : 0 ≤ a) (hb : 0 ≤ b) (h : a * a ≤ b * b) : a ≤ b := by
  nlinarith

/-- `pinvApply` is a least-squares solution: its residual is minimal. -/
lemma pinvApply_isLS (f : E7 →ₗ[ℝ] E6) (b : E6) (q : E7) :
    ‖f (pinvApply f b) - b‖ ≤ ‖f q - b‖ := by
  rw [pinvApply_maps]
  have hmemu : f q - rangeProj f b ∈ LinearMap.range f :=
    Submodule.sub_mem _ (LinearMap.mem_range_self f q)
      (orthogonalProjection (LinearMap.range f) b).2
  have hmemw : rangeProj f b - b ∈ (LinearMap.range f)ᗮ := by
    have hsub := sub_orthogonalProjection_mem_orthogonal (K := LinearMap.range f) b
    have := Submodule.neg_mem _ hsub
    simpa [rangeProj] using this
  have hinner : (inner (f q - rangeProj f b) (rangeProj f b - b) : ℝ) = 0 :=
    Submodule.inner_right_of_mem_orthogonal hmemu hmemw
  have hpyth := norm_add_sq_eq_norm_sq_add_norm_sq_real hinner
  have hsum : (f q - rangeProj f b) + (rangeProj f b - b) = f q - b := by abel
  rw [hsum] at hpyth
  refine le_of_sq_le_sq' (norm_nonneg _) (norm_nonneg _) ?_
  nlinarith [norm_nonneg (f q - rangeProj f b), sq_nonneg (‖f q - rangeProj f b‖)]

/-- `pinvApply` has minimal norm among least-squares solutions. -/
lemma pinvApply_minNorm (f : E7 →ₗ[ℝ] E6) (b : E6) (q : E7)
    (hq : ∀ r : E7, ‖f q - b‖ ≤ ‖f r - b‖) : ‖pinvApply f b‖ ≤ ‖q‖ := by
  have heq : ‖f q - b‖ = ‖rangeProj f b - b‖ := by
    have h1 : ‖f q - b‖ ≤ ‖f (pinvApply f b) - b‖ := hq _
    have h2 : ‖f (pinvApply f b) - b‖ ≤ ‖f q - b‖ := pinvApply_isLS f b q
    rw [pinvApply_maps] at h1 h2
    exact le_antisymm h1 h2
  have hmemu : f q - rangeProj f b ∈ LinearMap.range f :=
    Submodule.sub_mem _ (LinearMap.mem_range_self f q)
      (orthogonalProjection (LinearMap.range f) b).2
  have hmemw : rangeProj f b - b ∈ (LinearMap.range f)ᗮ := by
    have hsub := sub_orthogonalProjection_mem_orthogonal (K := LinearMap.range f) b
    have := Submodule.neg_mem _ hsub
    simpa [rangeProj] using this
  have hinner : (inner (f q - rangeProj f b) (rangeProj f b - b) : ℝ) = 0 :=
    Submodule.inner_right_of_mem_orthogonal hmemu hmemw
  have hpyth := norm_add_sq_eq_norm_sq_add_norm_sq_real hinner
  have hsum : (f q - rangeProj f b) + (rangeProj f b - b) = f q - b := by abel
  rw [hsum] at hpyth
  have hu2 : ‖f q - rangeProj f b‖ * ‖f q - rangeProj f b‖ = 0 := by
    rw [heq] at hpyth
    nlinarith [mul_self_nonneg (‖f q - rangeProj f b‖)]
  have hfq : f q = rangeProj f b := by
    have := norm_eq_zero.mp (mul_self_eq_zero.mp hu2)
    exact sub_eq_zero.mp this
  have hkmem : q - pinvApply f b ∈ LinearMap.ker f := by
    rw [LinearMap.mem_ker, map_sub, pinvApply_maps, hfq, sub_self]
  have hinner2 : (inner (q - pinvApply f b) (pinvApply f b) : ℝ) = 0 :=
    Submodule.inner_right_of_mem_orthogonal hkmem (pinvApply_mem f b)
  have hpyth2 := norm_add_sq_eq_norm_sq_add_norm_sq_real hinner2
  have hsum2 : (q - pinvApply f b) + pinvApply f b = q := by abel
  rw [hsum2] at hpyth2
  refine le_of_sq_le_sq' (norm_nonneg _) (norm_nonneg _) ?_
  nlinarith [norm_nonneg (q - pinvApply f b)]

/-- The zero Jacobian absorbs: the minimum-norm solution of `0 · q = b` is 0. -/
lemma pinvApply_zero (b : E6) : pinvApply (0 : E7 →ₗ[ℝ] E6) b = 0 := by
  have hm := pinvApply_mem (0 : E7 →ₗ[ℝ] E6) b
  rw [LinearMap.ker_zero, Submodule.top_orthogonal_eq_bot] at hm
  exact (Submodule.mem_bot ℝ).mp hm

lemma rangeProj_of_surjective {f : E7 →ₗ[ℝ] E6} (hf : LinearMap.range f = ⊤) (b : E6) :
    rangeProj f b = b := by
  unfold rangeProj
  exact orthogonalProjection_eq_self_iff.mpr (by rw [hf]; trivial)

/-- Predicate: `q` minimises the residual of `f q ≈ b`. -/
def IsLeastSquares (f : E7 →ₗ[ℝ] E6) (b : E6) (q : E7) : Prop :=
  ∀ r : E7, ‖f q - b‖ ≤ ‖f r - b‖

/-- Predicate: `q` is a least-squares solution of minimal Euclidean norm —
the defining property of `pinv(J) · b`. -/
def IsMinNormLS (f : E7 →ₗ[ℝ] E6) (b : E6) (q : E7) : Prop :=
  IsLeastSquares f b q ∧ ∀ r : E7, IsLeastSquares f b r → ‖q‖ ≤ ‖r‖

/-- C8: resolved-rate controller.  `resolved_rates(xdot, J, scale)` is `scale`
times the minimum-norm least-squares solution `pinv(J)·xdot` (the embedding of
numpy's pseudo-inverse); the function is total, so a singular or rank-deficient
Jacobian never raises; for the zero Jacobian the output is the zero 7-vector;
and for a full-row-rank (surjective) 6×7 Jacobian, applying `J` to the
unscaled solution reproduces `xdot` exactly. -/
theorem resolved_rates_pinv (xdot : E6) (j : Matrix (Fin 6) (Fin 7) ℝ) (scale : ℝ) :
    (∀ i, resolved_rates xdot j scale i
        = scale * pinvApply (Matrix.toEuclideanLin j) xdot i) ∧
    IsMinNormLS (Matrix.toEuclideanLin j) xdot (pinvApply (Matrix.toEuclideanLin j) xdot) ∧
    (j = 0 → ∀ i, resolved_rates xdot j scale i = 0) ∧
    (LinearMap.range (Matrix.toEuclideanLin j) = ⊤ →
      Matrix.toEuclideanLin j (pinvApply (Matrix.toEuclideanLin j) xdot) = xdot) := by
  refine ⟨fun i => mul_comm _ _,
    ⟨fun r => pinvApply_isLS _ _ r, fun r hr => pinvApply_minNorm _ _ r hr⟩,
    fun hj i => ?_, fun hf => ?_⟩
  · subst hj
    unfold resolved_rates
    rw [show Matrix.toEuclideanLin (0 : Matrix (Fin 6) (Fin 7) ℝ) = 0 from map_zero _,
      pinvApply_zero]
    show (0 : ℝ) * scale = 0
    exact zero_mul scale
  · rw [pinvApply_maps, rangeProj_of_surjective hf]

/-- A full-row-rank 6×7 test Jacobian: the identity on the first six joints. -/
noncomputable def idJ : Matrix (Fin 6) (Fin 7) ℝ :=
  Matrix.of fun i j => if (j : ℕ) = (i : ℕ) then 1 else 0

lemma idJ_apply (x : E7) (i : Fin 6) :
    Matrix.toEuclideanLin idJ x i = x ⟨(i : ℕ), by omega⟩ := by
  show (∑ j, idJ i j * x j) = x ⟨(i : ℕ), by omega⟩
  have hcond : ∀ j : Fin 7, ((j : ℕ) = (i : ℕ)) = (j = ⟨(i : ℕ), by omega⟩) := fun j => by
    simp [Fin.ext_iff]
  simp only [idJ, Matrix.of_apply, hcond, ite_mul, one_mul, zero_mul]
  simp [Finset.sum_ite_eq']

lemma idJ_range : LinearMap.range (Matrix.toEuclideanLin idJ) = ⊤ := by
  rw [LinearMap.range_eq_top]
  intro b
  refine ⟨(fun k => if h : (k : ℕ) < 6 then b ⟨(k : ℕ), h⟩ else 0 : Fin 7 → ℝ), ?_⟩
  funext i
  rw [idJ_apply]
  have hlt : ((⟨(i : ℕ), by omega⟩ : Fin 7) : ℕ) < 6 := by
    show (i : ℕ) < 6
    omega
  show (if h : ((⟨(i : ℕ), by omega⟩ : Fin 7) : ℕ) < 6
        then b ⟨((⟨(i : ℕ), by omega⟩ : Fin 7) : ℕ), h⟩ else 0) = b i
  rw [dif_pos hlt]

/-- Witness for `resolved_rates_pinv`: at the zero Jacobian the output is the
zero vector, and at the concrete full-row-rank Jacobian `idJ` the unscaled
solution reproduces the target twist. -/
theorem resolved_rates_pinv_witness :
    (∀ i, resolved_rates (0 : E6) (0 : Matrix (Fin 6) (Fin 7) ℝ) 1 i = 0) ∧
    Matrix.toEuclideanLin idJ (pinvApply (Matrix.toEuclideanLin idJ) 0) = 0 :=
  ⟨(resolved_rates_pinv 0 0 1).2.2.1 rfl,
   (resolved_rates_pinv 0 idJ 1).2.2.2 idJ_range⟩

end RoboLambda
